import Mathlib

/-!
Verification of the finite-automaton / parser front-end core of the Empirical
repository: the subset construction `to_DFA` from `lexer_utils.h` and the
grammar-rule builder `Parser` from `Parser.h`, over a shallow embedding of the
underlying data model.  The `NFA`, `DFA` and `Lexer` classes themselves are not
among the available sources (only their callers are), so their small interfaces
are modelled from the specification; the algorithms `to_DFA`, `Parser::AddRule`,
`Parser::BuildRule` and `Parser::GetID` are translated from the source.
-/

set_option maxHeartbeats 1000000

namespace Empirical

/-- Modelled from the spec: the NFA data model (`NFA.h` is missing from the
sources; only its caller `to_DFA` is present).  States are dense integer
indices below `num_states`; each state has, per symbol, a set of destination
state indices; the automaton has a set of start states and a per-state
accepting ("stop") marker.  The alphabet is `0 .. num_symbols - 1`
(`NFA::NUM_SYMBOLS`). -/
structure NFA where
  num_states : Nat
  num_symbols : Nat
  trans : Nat → Nat → Finset Nat
  start : Finset Nat
  stop : Nat → Bool

/-- Modelled from the spec: `NFA::GetNext(symbol, set)` returns the set of all
states reachable from any state in the input set by consuming `symbol`; it is
a pure function of `(symbol, state-set)`. -/
def NFA.GetNext (nfa : NFA) (sym : Nat) (S : Finset Nat) : Finset Nat :=
  S.biUnion (fun s => nfa.trans s sym)

/-- Modelled from the spec: `NFA::IsStop(state)`. -/
def NFA.IsStop (nfa : NFA) (s : Nat) : Bool := nfa.stop s

/-- Modelled from the spec: `NFA::GetStart()`. -/
def NFA.GetStart (nfa : NFA) : Finset Nat := nfa.start

/-- The NFA structural invariant stated by the spec's data model: every start
state and every transition destination is a valid state index. -/
def NFA.Valid (nfa : NFA) : Prop :=
  (∀ s ∈ nfa.start, s < nfa.num_states) ∧
  ∀ s ∈ Finset.range nfa.num_states, ∀ sym ∈ Finset.range nfa.num_symbols,
    ∀ t ∈ nfa.trans s sym, t < nfa.num_states

instance (nfa : NFA) : Decidable nfa.Valid := by
  unfold NFA.Valid; exact inferInstance

/-- The set of NFA states active after consuming the word `w` starting from the
active set `S` (repeated `GetNext`). -/
def nfaRunFrom (nfa : NFA) (S : Finset Nat) : List Nat → Finset Nat
  | [] => S
  | c :: w => nfaRunFrom nfa (nfa.GetNext c S) w

/-- The NFA accepts `w` iff after consuming all of `w` from the start state-set
at least one active state is accepting. -/
def NFA.Accepts (nfa : NFA) (w : List Nat) : Prop :=
  ∃ s ∈ nfaRunFrom nfa nfa.GetStart w, nfa.IsStop s = true

instance (nfa : NFA) (w : List Nat) : Decidable (nfa.Accepts w) := by
  unfold NFA.Accepts; exact inferInstance

/-- Modelled from the spec: the DFA data model (`DFA.h` is missing from the
sources).  Each state maps each symbol to at most one next state (`none` is the
"no transition" sentinel) and carries an accepting marker; the start state is
always index 0. -/
structure DFA where
  size : Nat
  trans : Nat → Nat → Option Nat
  stop : Nat → Bool

/-- Modelled from the spec: a DFA constructed with an initial state count; new
states default to non-accepting with no outgoing transitions. -/
def DFA.init (n : Nat) : DFA :=
  { size := n, trans := fun _ _ => none, stop := fun _ => false }

/-- Modelled from the spec: `DFA::GetSize()`. -/
def DFA.GetSize (d : DFA) : Nat := d.size

/-- Modelled from the spec: `DFA::Resize(n)` grows the state table; states keep
their transitions and accepting markers. -/
def DFA.Resize (d : DFA) (n : Nat) : DFA := { d with size := n }

/-- Modelled from the spec: `DFA::SetTransition(from, to, symbol)`;
deterministic, a later call with the same `(from, symbol)` overwrites. -/
def DFA.SetTransition (d : DFA) (src dst sym : Nat) : DFA :=
  { d with trans := fun s y => if s = src ∧ y = sym then some dst else d.trans s y }

/-- Modelled from the spec: `DFA::SetStop(state)` marks a state accepting. -/
def DFA.SetStop (d : DFA) (s : Nat) : DFA :=
  { d with stop := fun t => if t = s then true else d.stop t }

/-- The DFA state reached (if any) after consuming `w` from the optional
current state `o`; a missing transition aborts the run. -/
def dfaRunFrom (d : DFA) (o : Option Nat) : List Nat → Option Nat
  | [] => o
  | c :: w => dfaRunFrom d (o.bind (fun i => d.trans i c)) w

/-- The DFA accepts `w` iff consuming all of `w` from state 0 ends in an
accepting state (getting stuck rejects). -/
def DFA.AcceptsB (d : DFA) (w : List Nat) : Bool :=
  match dfaRunFrom d (some 0) w with
  | some i => d.stop i
  | none => false

/-- The state carried through `to_DFA`'s work-list loop: the DFA built so far,
the `id_map` from NFA state-sets to DFA state ids (`std::map<std::set<int>,int>`
as an association list with set-valued keys), and the stack of state-sets still
to be explored (`state_stack`; the list head is the vector's back). -/
structure SC where
  dfa : DFA
  id_map : List (Finset Nat × Nat)
  stack : List (Finset Nat)

/-- Lookup of an NFA state-set in `id_map` (`id_map.find(s)`). -/
def lookupSet (m : List (Finset Nat × Nat)) (S : Finset Nat) : Option Nat :=
  (m.find? (fun p => decide (p.1 = S))).map (fun p => p.2)

/-- The body of `to_DFA`'s "new state" branch (`lexer_utils.h` lines 20-25 of
the loop): allocate the next DFA id for the set `T`, grow the DFA, push `T` on
the work stack, and mark the new state accepting iff some NFA state in `T` is
accepting (the `for (int s : next_state) ... break` loop). -/
def allocState (nfa : NFA) (T : Finset Nat) (st : SC) : SC :=
  { dfa :=
      if ∃ s ∈ T, nfa.IsStop s = true
      then (st.dfa.Resize (st.dfa.GetSize + 1)).SetStop st.dfa.GetSize
      else st.dfa.Resize (st.dfa.GetSize + 1),
    id_map := st.id_map ++ [(T, st.dfa.GetSize)],
    stack := T :: st.stack }

/-- One symbol of `to_DFA`'s inner loop for the popped set `cur` with DFA id
`curId`: compute `next_state = nfa.GetNext(sym, cur_state)`; discard it if
empty and `keep_invalid` is unset; otherwise allocate a DFA state if the set is
new, and record the transition `SetTransition(cur_id, id_map[next_state], sym)`. -/
def procSym (nfa : NFA) (ki : Bool) (cur : Finset Nat) (curId : Nat)
    (st : SC) (sym : Nat) : SC :=
  if nfa.GetNext sym cur = ∅ ∧ ki = false then st
  else
    let st1 := if (lookupSet st.id_map (nfa.GetNext sym cur)).isSome then st
               else allocState nfa (nfa.GetNext sym cur) st
    { st1 with
      dfa := st1.dfa.SetTransition curId
               ((lookupSet st1.id_map (nfa.GetNext sym cur)).getD 0) sym }

/-- One iteration of `to_DFA`'s `while (state_stack.size())` loop: pop the next
state-set, read its DFA id from `id_map`, and run through all symbols
`0 .. NUM_SYMBOLS - 1`. -/
def stepSC (nfa : NFA) (ki : Bool) (st : SC) : SC :=
  match st.stack with
  | [] => st
  | cur :: rest =>
      (List.range nfa.num_symbols).foldl
        (procSym nfa ki cur ((lookupSet st.id_map cur).getD 0))
        { st with stack := rest }

/-- The work-list loop of `to_DFA`, with explicit fuel (each unit of fuel pays
for one iteration of the `while`; the loop stops as soon as the stack is
empty).  `to_DFA` runs it with fuel `2 ^ num_states`, which the termination
theorem shows suffices for every valid NFA. -/
def toDFAgo (nfa : NFA) (ki : Bool) : Nat → SC → SC
  | 0, st => st
  | fuel + 1, st =>
      if st.stack.isEmpty then st else toDFAgo nfa ki fuel (stepSC nfa ki st)

/-- The seeded state of `to_DFA`: `DFA dfa(1)`, the start set pushed on the
stack, and `id_map[start] = 0`. -/
def to_DFA_init (nfa : NFA) : SC :=
  { dfa := DFA.init 1, id_map := [(nfa.GetStart, 0)], stack := [nfa.GetStart] }

/-- The full loop state at the end of `to_DFA(nfa, keep_invalid)`. -/
def to_DFA_state (nfa : NFA) (ki : Bool) : SC :=
  toDFAgo nfa ki (2 ^ nfa.num_states) (to_DFA_init nfa)

/-- `to_DFA(nfa, keep_invalid)` from `lexer_utils.h`: the DFA produced by the
subset construction. -/
def to_DFA (nfa : NFA) (ki : Bool) : DFA := (to_DFA_state nfa ki).dfa

/-- The transition contract established for a map entry `(S, i)` once `S` has
been explored: on each alphabet symbol, either `GetNext` was empty and (with
`keep_invalid` unset) no transition was recorded, or the transition goes to the
DFA id of the successor set. -/
def condD (nfa : NFA) (ki : Bool) (st : SC) (S : Finset Nat) (i : Nat) (sym : Nat) : Prop :=
  (nfa.GetNext sym S = ∅ ∧ ki = false → st.dfa.trans i sym = none) ∧
  (¬(nfa.GetNext sym S = ∅ ∧ ki = false) →
    ∃ j, (nfa.GetNext sym S, j) ∈ st.id_map ∧ st.dfa.trans i sym = some j)

/-- Structural invariants of the subset-construction loop state: `id_map` has
pairwise-distinct set keys and injective, in-range ids; the DFA size equals the
number of allocated ids; the start set has id 0; the stack holds known,
distinct sets; out-of-range DFA states are blank; state 0 is never accepting;
an allocated state (other than 0) is accepting iff its set contains an
accepting NFA state; and (when `keep_invalid` is unset) no key except possibly
the seeded start set is empty. -/
structure InvCore (nfa : NFA) (ki : Bool) (st : SC) : Prop where
  snd_lt : ∀ p ∈ st.id_map, p.2 < st.id_map.length
  snd_inj : ∀ p ∈ st.id_map, ∀ q ∈ st.id_map, p.2 = q.2 → p = q
  nodup_keys : (st.id_map.map Prod.fst).Nodup
  size_eq : st.dfa.size = st.id_map.length
  start_mem : (nfa.GetStart, 0) ∈ st.id_map
  stack_sub : ∀ S ∈ st.stack, S ∈ st.id_map.map Prod.fst
  stack_nodup : st.stack.Nodup
  trans_hi : ∀ i sym, st.dfa.size ≤ i → st.dfa.trans i sym = none
  stop_hi : ∀ i, st.dfa.size ≤ i → st.dfa.stop i = false
  stop_zero : st.dfa.stop 0 = false
  stop_ok : ∀ p ∈ st.id_map, p.2 ≠ 0 →
    (st.dfa.stop p.2 = true ↔ ∃ s ∈ p.1, nfa.IsStop s = true)
  empty_key : ki = false → ∀ p ∈ st.id_map, p.1 = ∅ → p.1 = nfa.GetStart

/-- The full loop invariant: the structural part, plus: sets still on the stack
have no outgoing transitions yet, and sets no longer on the stack have been
fully explored. -/
structure Inv (nfa : NFA) (ki : Bool) (st : SC) : Prop where
  core : InvCore nfa ki st
  pend : ∀ p ∈ st.id_map, p.1 ∈ st.stack → ∀ sym, st.dfa.trans p.2 sym = none
  proc : ∀ p ∈ st.id_map, p.1 ∉ st.stack →
      (∀ sym, sym < nfa.num_symbols → condD nfa ki st p.1 p.2 sym) ∧
      (∀ sym, nfa.num_symbols ≤ sym → st.dfa.trans p.2 sym = none)

/-- The invariant holding part-way through the symbol loop of one work-list
iteration: the popped set `cur` (with id `curId`) has been explored exactly for
the symbols below `m`. -/
structure Mid (nfa : NFA) (ki : Bool) (cur : Finset Nat) (curId : Nat) (m : Nat) (st : SC) : Prop where
  core : InvCore nfa ki st
  cur_mem : (cur, curId) ∈ st.id_map
  cur_notin : cur ∉ st.stack
  pend : ∀ p ∈ st.id_map, p.1 ∈ st.stack → ∀ sym, st.dfa.trans p.2 sym = none
  proc : ∀ p ∈ st.id_map, p.1 ∉ st.stack → p.1 ≠ cur →
      (∀ sym, sym < nfa.num_symbols → condD nfa ki st p.1 p.2 sym) ∧
      (∀ sym, nfa.num_symbols ≤ sym → st.dfa.trans p.2 sym = none)
  cur_done : ∀ sym, sym < m → condD nfa ki st cur curId sym
  cur_todo : ∀ sym, m ≤ sym → st.dfa.trans curId sym = none

/-- All state-sets recorded in `id_map` contain only valid NFA state indices
(holds whenever the NFA itself is valid). -/
def HV (nfa : NFA) (st : SC) : Prop :=
  ∀ p ∈ st.id_map, ∀ s ∈ p.1, s < nfa.num_states

/-- Modelled from the spec: the slice of the Lexer interface the parser layer
uses (`Lexer.h` is missing from the sources).  `MaxTokenID()` reports the
highest assigned token id; token names map to their ids. -/
structure Lexer where
  max_token_id : Int
  token_ids : String → Option Int

/-- Modelled from the spec: `Lexer::MaxTokenID()`. -/
def Lexer.MaxTokenID (lx : Lexer) : Int := lx.max_token_id

/-- One argument of the variadic `Parser::AddRule` / `Parser::GetID` overload
set: a raw integer id or a symbol name. -/
inductive PatElem where
  | int (id : Int)
  | name (s : String)
deriving DecidableEq

/-- `ParseRule` from `Parser.h`: a name, the ordered pattern of symbol ids, and
the rule's own id. -/
structure ParseRule where
  name : String
  pattern : List Int
  id : Int
deriving DecidableEq

/-- The `Parser` state from `Parser.h`: the lexer, the rule table, and the next
rule id to allocate. -/
structure Parser where
  lexer : Lexer
  rules : List ParseRule
  cur_rule_id : Int

/-- `Parser::Parser(Lexer&)` from the source: empty rule table and
`cur_rule_id(in_lexer.MaxTokenID())`. -/
def Parser.init (lx : Lexer) : Parser :=
  { lexer := lx, rules := [], cur_rule_id := lx.MaxTokenID }

/-- `Parser::GetID(int id)` from the source: an integer is used verbatim. -/
def Parser.GetID_int (_p : Parser) (id : Int) : Int := id

/-- `Parser::GetID(const std::string & name)` from the source: the body ignores
the name (the `@CAO` comments plan rule and lexer lookups that are not
implemented) and returns 0. -/
def Parser.GetID_name (_p : Parser) (_nm : String) : Int := 0

/-- Dispatch of the two C++ `GetID` overloads over a pattern element. -/
def Parser.GetID (p : Parser) : PatElem → Int
  | .int id => p.GetID_int id
  | .name s => p.GetID_name s

/-- `Parser::BuildRule` from the source: push `GetID` of each argument onto the
pattern, in argument order. -/
def Parser.BuildRule (p : Parser) : List PatElem → List Int
  | [] => []
  | e :: es => p.GetID e :: p.BuildRule es

/-- `Parser::AddRule(name, states...)` from the source: build a rule with the
given name, the freshly allocated id (`cur_rule_id++`) and the resolved
pattern, append it to `rules`, and return the new rule's id. -/
def Parser.AddRule (p : Parser) (nm : String) (elems : List PatElem) : Parser × Int :=
  ({ p with
      rules := p.rules ++ [{ name := nm, pattern := p.BuildRule elems, id := p.cur_rule_id }],
      cur_rule_id := p.cur_rule_id + 1 },
   p.cur_rule_id)

/-- A sequence of `AddRule` calls; returns the final parser and the ids in call
order. -/
def addRules : Parser → List (String × List PatElem) → Parser × List Int
  | p, [] => (p, [])
  | p, c :: rest =>
      let q := p.AddRule c.1 c.2
      ((addRules q.1 rest).1, q.2 :: (addRules q.1 rest).2)

/-- The rule records that a sequence of `AddRule` calls appends, starting from
the id `startId` (patterns resolved with `GetID`, ids consecutive). -/
def expectedRules (p : Parser) (startId : Int) :
    List (String × List PatElem) → List ParseRule
  | [] => []
  | c :: rest =>
      { name := c.1, pattern := p.BuildRule c.2, id := startId } ::
        expectedRules p (startId + 1) rest

/-- A one-state NFA whose single state is both start state and accepting; its
language contains the empty string. -/
def exA : NFA :=
  { num_states := 1, num_symbols := 1, trans := fun _ _ => ∅,
    start := {0}, stop := fun _ => true }

/-- A two-state NFA accepting exactly the one-symbol string `[0]`. -/
def exB : NFA :=
  { num_states := 2, num_symbols := 1,
    trans := fun s sym => if s = 0 ∧ sym = 0 then {1} else ∅,
    start := {0}, stop := fun s => s == 1 }

/-- A lexer whose maximum assigned token id is 7 and which knows no token
names. -/
def lx7 : Lexer := { max_token_id := 7, token_ids := fun _ => none }

/-- A lexer whose maximum assigned token id is 7 and which maps the token name
"tok" to id 3. -/
def lxT : Lexer :=
  { max_token_id := 7, token_ids := fun s => if s = ("tok" : String) then some 3 else none }

theorem size_SetTransition (d : DFA) (a b y : Nat) :
    (d.SetTransition a b y).size = d.size := rfl

theorem stop_SetTransition (d : DFA) (a b y : Nat) :
    (d.SetTransition a b y).stop = d.stop := rfl

theorem trans_SetTransition (d : DFA) (a b y s z : Nat) :
    (d.SetTransition a b y).trans s z =
      if s = a ∧ z = y then some b else d.trans s z := rfl

theorem trans_SetTransition_ne (d : DFA) (a b y s z : Nat) (h : s ≠ a) :
    (d.SetTransition a b y).trans s z = d.trans s z := by
  rw [trans_SetTransition, if_neg]
  exact fun hc => h hc.1

theorem size_Resize (d : DFA) (n : Nat) : (d.Resize n).size = n := rfl

theorem trans_Resize (d : DFA) (n : Nat) : (d.Resize n).trans = d.trans := rfl

theorem stop_Resize (d : DFA) (n : Nat) : (d.Resize n).stop = d.stop := rfl

theorem size_SetStop (d : DFA) (s : Nat) : (d.SetStop s).size = d.size := rfl

theorem trans_SetStop (d : DFA) (s : Nat) : (d.SetStop s).trans = d.trans := rfl

theorem stop_SetStop (d : DFA) (s t : Nat) :
    (d.SetStop s).stop t = if t = s then true else d.stop t := rfl

theorem lookupSet_nil (S : Finset Nat) : lookupSet [] S = none := rfl

theorem lookupSet_cons (p : Finset Nat × Nat) (m : List (Finset Nat × Nat)) (S : Finset Nat) :
    lookupSet (p :: m) S = if p.1 = S then some p.2 else lookupSet m S := by
  by_cases h : p.1 = S <;> simp [lookupSet, List.find?, h]

theorem mem_of_lookupSet {m : List (Finset Nat × Nat)} {S : Finset Nat} {i : Nat}
    (h : lookupSet m S = some i) : (S, i) ∈ m := by
  induction m with
  | nil => simp [lookupSet_nil] at h
  | cons p m ih =>
      rw [lookupSet_cons] at h
      by_cases hp : p.1 = S
      · rw [if_pos hp] at h
        obtain ⟨a, b⟩ := p
        cases hp
        injection h with h
        cases h
        exact List.mem_cons_self _ _
      · rw [if_neg hp] at h
        exact List.mem_cons_of_mem _ (ih h)

theorem lookupSet_eq_none_iff (m : List (Finset Nat × Nat)) (S : Finset Nat) :
    lookupSet m S = none ↔ S ∉ m.map Prod.fst := by
  induction m with
  | nil => simp [lookupSet_nil]
  | cons p m ih =>
      rw [lookupSet_cons]
      by_cases hp : p.1 = S
      · simp [hp]
      · simp [hp, ih, Ne.symm hp]

theorem lookupSet_of_mem {m : List (Finset Nat × Nat)} {S : Finset Nat} {i : Nat}
    (hn : (m.map Prod.fst).Nodup) (h : (S, i) ∈ m) : lookupSet m S = some i := by
  induction m with
  | nil => simp at h
  | cons p m ih =>
      rw [lookupSet_cons]
      rcases List.mem_cons.mp h with h' | h'
      · rw [if_pos]
        · rw [← h']
        · rw [← h']
      · have hp : p.1 ≠ S := by
          intro hc
          have : S ∈ m.map Prod.fst := List.mem_map.mpr ⟨(S, i), h', rfl⟩
          rw [List.map_cons, List.nodup_cons, hc] at hn
          exact hn.1 this
        rw [if_neg hp]
        exact ih (List.nodup_cons.mp (by rwa [List.map_cons] at hn)).2 h'

theorem lookupSet_append_single {m : List (Finset Nat × Nat)} {T : Finset Nat} {i : Nat}
    (h : lookupSet m T = none) : lookupSet (m ++ [(T, i)]) T = some i := by
  induction m with
  | nil => simp [lookupSet_cons]
  | cons p m ih =>
      rw [lookupSet_cons] at h
      rw [List.cons_append, lookupSet_cons]
      by_cases hp : p.1 = T
      · rw [if_pos hp] at h
        cases h
      · rw [if_neg hp] at h ⊢
        exact ih h

theorem eq_id_of_mem_mem {m : List (Finset Nat × Nat)} (hn : (m.map Prod.fst).Nodup)
    {S : Finset Nat} {i j : Nat} (hi : (S, i) ∈ m) (hj : (S, j) ∈ m) : i = j := by
  have h1 := lookupSet_of_mem hn hi
  have h2 := lookupSet_of_mem hn hj
  rw [h1] at h2
  cases h2
  rfl

theorem GetNext_empty (nfa : NFA) (sym : Nat) : nfa.GetNext sym ∅ = ∅ := by
  simp [NFA.GetNext]

theorem nfaRunFrom_empty (nfa : NFA) (w : List Nat) : nfaRunFrom nfa ∅ w = ∅ := by
  induction w with
  | nil => rfl
  | cons c w ih => rw [nfaRunFrom, GetNext_empty]; exact ih

theorem dfaRunFrom_none (d : DFA) (w : List Nat) : dfaRunFrom d none w = none := by
  induction w with
  | nil => rfl
  | cons c w ih => rw [dfaRunFrom]; exact ih

theorem allocState_id_map (nfa : NFA) (T : Finset Nat) (st : SC) :
    (allocState nfa T st).id_map = st.id_map ++ [(T, st.dfa.GetSize)] := rfl

theorem allocState_stack (nfa : NFA) (T : Finset Nat) (st : SC) :
    (allocState nfa T st).stack = T :: st.stack := rfl

theorem allocState_size (nfa : NFA) (T : Finset Nat) (st : SC) :
    (allocState nfa T st).dfa.size = st.dfa.size + 1 := by
  unfold allocState
  split <;> rfl

theorem allocState_trans (nfa : NFA) (T : Finset Nat) (st : SC) :
    (allocState nfa T st).dfa.trans = st.dfa.trans := by
  unfold allocState
  split <;> rfl

theorem allocState_stop_ne (nfa : NFA) (T : Finset Nat) (st : SC) (i : Nat)
    (h : i ≠ st.dfa.GetSize) : (allocState nfa T st).dfa.stop i = st.dfa.stop i := by
  unfold allocState
  split
  · simp only [stop_SetStop, stop_Resize, if_neg h]
  · rfl

theorem allocState_stop_new (nfa : NFA) (T : Finset Nat) (st : SC)
    (h0 : st.dfa.stop st.dfa.GetSize = false) :
    ((allocState nfa T st).dfa.stop st.dfa.GetSize = true ↔
      ∃ s ∈ T, nfa.IsStop s = true) := by
  unfold allocState
  split
  · next hex =>
      simp only [stop_SetStop, stop_Resize]
      exact iff_of_true (by simp) hex
  · next hex =>
      simp only [stop_Resize]
      rw [h0]
      exact iff_of_false (by simp) hex

theorem procSym_eq_skip {nfa : NFA} {ki : Bool} {cur : Finset Nat} {curId : Nat}
    {st : SC} {sym : Nat} (h : nfa.GetNext sym cur = ∅ ∧ ki = false) :
    procSym nfa ki cur curId st sym = st := by
  unfold procSym
  rw [if_pos h]

theorem procSym_eq_hit {nfa : NFA} {ki : Bool} {cur : Finset Nat} {curId : Nat}
    {st : SC} {sym : Nat} {j : Nat} (hT : ¬(nfa.GetNext sym cur = ∅ ∧ ki = false))
    (hl : lookupSet st.id_map (nfa.GetNext sym cur) = some j) :
    procSym nfa ki cur curId st sym =
      { st with dfa := st.dfa.SetTransition curId j sym } := by
  simp only [procSym, if_neg hT]
  rw [hl]
  simp only [Option.isSome_some, if_true]
  rw [hl]
  rfl

theorem procSym_eq_new {nfa : NFA} {ki : Bool} {cur : Finset Nat} {curId : Nat}
    {st : SC} {sym : Nat} (hT : ¬(nfa.GetNext sym cur = ∅ ∧ ki = false))
    (hl : lookupSet st.id_map (nfa.GetNext sym cur) = none) :
    procSym nfa ki cur curId st sym =
      { dfa := (allocState nfa (nfa.GetNext sym cur) st).dfa.SetTransition curId
                 st.dfa.GetSize sym,
        id_map := st.id_map ++ [(nfa.GetNext sym cur, st.dfa.GetSize)],
        stack := nfa.GetNext sym cur :: st.stack } := by
  simp only [procSym]
  rw [if_neg hT, hl]
  have h2 : lookupSet (allocState nfa (nfa.GetNext sym cur) st).id_map
      (nfa.GetNext sym cur) = some st.dfa.GetSize := by
    rw [allocState_id_map]
    exact lookupSet_append_single hl
  simp only [Option.isSome_none, Bool.false_eq_true, if_false, h2, Option.getD_some]
  rfl

theorem condD_mono {nfa : NFA} {ki : Bool} {st st' : SC} {S : Finset Nat} {i sym : Nat}
    (h : condD nfa ki st S i sym)
    (hmap : ∀ x ∈ st.id_map, x ∈ st'.id_map)
    (htrans : st'.dfa.trans i sym = st.dfa.trans i sym) : condD nfa ki st' S i sym := by
  refine ⟨fun hc => ?_, fun hc => ?_⟩
  · rw [htrans]
    exact h.1 hc
  · obtain ⟨j, hj, he⟩ := h.2 hc
    exact ⟨j, hmap _ hj, by rw [htrans]; exact he⟩

theorem InvCore.setTrans {nfa : NFA} {ki : Bool} {st : SC} (h : InvCore nfa ki st)
    {a b y : Nat} (ha : a < st.dfa.size) :
    InvCore nfa ki { st with dfa := st.dfa.SetTransition a b y } := by
  refine ⟨h.snd_lt, h.snd_inj, h.nodup_keys, ?_, h.start_mem, h.stack_sub, h.stack_nodup,
    ?_, ?_, ?_, ?_, h.empty_key⟩
  · rw [size_SetTransition]
    exact h.size_eq
  · intro i sym hi
    rw [size_SetTransition] at hi
    rw [trans_SetTransition_ne _ _ _ _ _ _ (Nat.ne_of_gt (lt_of_lt_of_le ha hi))]
    exact h.trans_hi i sym hi
  · intro i hi
    rw [size_SetTransition] at hi
    rw [stop_SetTransition]
    exact h.stop_hi i hi
  · rw [stop_SetTransition]
    exact h.stop_zero
  · intro p hp hne
    rw [stop_SetTransition]
    exact h.stop_ok p hp hne

theorem InvCore.alloc {nfa : NFA} {ki : Bool} {st : SC} (h : InvCore nfa ki st)
    {T : Finset Nat} (hT : ¬(T = ∅ ∧ ki = false)) (hnew : T ∉ st.id_map.map Prod.fst) :
    InvCore nfa ki (allocState nfa T st) := by
  have hGS : st.dfa.GetSize = st.id_map.length := h.size_eq
  have hlen : 0 < st.id_map.length :=
    List.length_pos.mpr (List.ne_nil_of_mem h.start_mem)
  constructor
  · intro p hp
    rw [allocState_id_map] at hp ⊢
    rw [List.length_append, List.length_singleton]
    rcases List.mem_append.mp hp with h' | h'
    · exact lt_of_lt_of_le (h.snd_lt p h') (Nat.le_succ _)
    · rcases List.mem_singleton.mp h' with rfl
      simp only [hGS]
      exact Nat.lt_succ_self _
  · intro p hp q hq he
    rw [allocState_id_map] at hp hq
    rcases List.mem_append.mp hp with hp' | hp' <;>
      rcases List.mem_append.mp hq with hq' | hq'
    · exact h.snd_inj p hp' q hq' he
    · rcases List.mem_singleton.mp hq' with rfl
      have := h.snd_lt p hp'
      rw [he] at this
      simp only [hGS] at this
      exact absurd this (lt_irrefl _)
    · rcases List.mem_singleton.mp hp' with rfl
      have := h.snd_lt q hq'
      rw [← he] at this
      simp only [hGS] at this
      exact absurd this (lt_irrefl _)
    · rcases List.mem_singleton.mp hp' with rfl
      rcases List.mem_singleton.mp hq' with rfl
      rfl
  · rw [allocState_id_map, List.map_append]
    rw [List.nodup_append]
    refine ⟨h.nodup_keys, List.nodup_singleton _, ?_⟩
    intro a ha hb
    rw [List.map_singleton, List.mem_singleton] at hb
    rw [hb] at ha
    exact hnew ha
  · rw [allocState_size, allocState_id_map, List.length_append, List.length_singleton,
      h.size_eq]
  · rw [allocState_id_map]
    exact List.mem_append_left _ h.start_mem
  · intro S hS
    rw [allocState_stack] at hS
    rw [allocState_id_map, List.map_append]
    rcases List.mem_cons.mp hS with rfl | h'
    · apply List.mem_append_right
      simp
    · exact List.mem_append_left _ (h.stack_sub S h')
  · rw [allocState_stack]
    refine List.nodup_cons.mpr ⟨?_, h.stack_nodup⟩
    intro hc
    exact hnew (h.stack_sub T hc)
  · intro i sym hi
    rw [allocState_size] at hi
    rw [allocState_trans]
    exact h.trans_hi i sym (le_trans (Nat.le_succ _) hi)
  · intro i hi
    rw [allocState_size] at hi
    have hne : i ≠ st.dfa.GetSize := by
      intro hc
      rw [hc] at hi
      simp only [DFA.GetSize] at hi
      exact absurd hi (by omega)
    rw [allocState_stop_ne _ _ _ _ hne]
    exact h.stop_hi i (le_trans (Nat.le_succ _) hi)
  · have hne : (0 : Nat) ≠ st.dfa.GetSize := by
      rw [hGS]
      exact Nat.ne_of_lt hlen
    rw [allocState_stop_ne _ _ _ _ hne]
    exact h.stop_zero
  · intro p hp hne
    rw [allocState_id_map] at hp
    rcases List.mem_append.mp hp with hp' | hp'
    · have hplt : p.2 ≠ st.dfa.GetSize := by
        rw [hGS]
        exact Nat.ne_of_lt (h.snd_lt p hp')
      rw [allocState_stop_ne _ _ _ _ hplt]
      exact h.stop_ok p hp' hne
    · rcases List.mem_singleton.mp hp' with rfl
      exact allocState_stop_new nfa T st (h.stop_hi st.dfa.size le_rfl)
  · intro hki p hp hpe
    rw [allocState_id_map] at hp
    rcases List.mem_append.mp hp with hp' | hp'
    · exact h.empty_key hki p hp' hpe
    · rcases List.mem_singleton.mp hp' with rfl
      exact absurd ⟨hpe, hki⟩ hT

theorem Mid.id_ne {nfa : NFA} {ki : Bool} {cur : Finset Nat} {curId m : Nat} {st : SC}
    (h : Mid nfa ki cur curId m st) {p : Finset Nat × Nat} (hp : p ∈ st.id_map)
    (hne : p.1 ≠ cur) : p.2 ≠ curId := by
  intro hc
  have he := h.core.snd_inj p hp (cur, curId) h.cur_mem hc
  exact hne (by rw [he])

theorem Mid.curId_lt {nfa : NFA} {ki : Bool} {cur : Finset Nat} {curId m : Nat} {st : SC}
    (h : Mid nfa ki cur curId m st) : curId < st.dfa.size := by
  rw [h.core.size_eq]
  exact h.core.snd_lt _ h.cur_mem

theorem Mid.step {nfa : NFA} {ki : Bool} {cur : Finset Nat} {curId m : Nat} {st : SC}
    (h : Mid nfa ki cur curId m st) :
    Mid nfa ki cur curId (m + 1) (procSym nfa ki cur curId st m) := by
  have hlt : curId < st.dfa.size := h.curId_lt
  by_cases hT : nfa.GetNext m cur = ∅ ∧ ki = false
  · rw [procSym_eq_skip hT]
    refine ⟨h.core, h.cur_mem, h.cur_notin, h.pend, h.proc, ?_, ?_⟩
    · intro sym hsym
      rcases Nat.lt_succ_iff_lt_or_eq.mp hsym with h' | rfl
      · exact h.cur_done sym h'
      · exact ⟨fun _ => h.cur_todo sym le_rfl, fun hc => absurd hT hc⟩
    · intro sym hsym
      exact h.cur_todo sym (Nat.le_of_succ_le hsym)
  · cases hl : lookupSet st.id_map (nfa.GetNext m cur) with
    | some j =>
        rw [procSym_eq_hit hT hl]
        have hmemT : (nfa.GetNext m cur, j) ∈ st.id_map := mem_of_lookupSet hl
        refine ⟨h.core.setTrans hlt, h.cur_mem, h.cur_notin, ?_, ?_, ?_, ?_⟩
        · intro p hp hstk sym
          have hne2 : p.2 ≠ curId :=
            h.id_ne hp (fun hc => h.cur_notin (hc ▸ hstk))
          show (st.dfa.SetTransition curId j m).trans p.2 sym = none
          rw [trans_SetTransition_ne _ _ _ _ _ _ hne2]
          exact h.pend p hp hstk sym
        · intro p hp hstk hne
          have hid : p.2 ≠ curId := h.id_ne hp hne
          have old := h.proc p hp hstk hne
          constructor
          · intro sym hs
            exact condD_mono (old.1 sym hs) (fun x hx => hx)
              (trans_SetTransition_ne _ _ _ _ _ _ hid)
          · intro sym hs
            rw [trans_SetTransition_ne _ _ _ _ _ _ hid]
            exact old.2 sym hs
        · intro sym hsym
          rcases Nat.lt_succ_iff_lt_or_eq.mp hsym with h' | rfl
          · refine condD_mono (h.cur_done sym h') (fun x hx => hx) ?_
            rw [trans_SetTransition, if_neg (fun hc => absurd hc.2 (Nat.ne_of_lt h'))]
          · refine ⟨fun hc => absurd hc hT, fun _ => ⟨j, hmemT, ?_⟩⟩
            show (st.dfa.SetTransition curId j sym).trans curId sym = some j
            rw [trans_SetTransition, if_pos ⟨rfl, rfl⟩]
        · intro sym hsym
          show (st.dfa.SetTransition curId j m).trans curId sym = none
          rw [trans_SetTransition, if_neg (fun hc => absurd hc.2 (by omega))]
          exact h.cur_todo sym (by omega)
    | none =>
        rw [procSym_eq_new hT hl]
        have hTnotin : nfa.GetNext m cur ∉ st.id_map.map Prod.fst :=
          (lookupSet_eq_none_iff _ _).mp hl
        have hGS : st.dfa.GetSize = st.id_map.length := h.core.size_eq
        have hcore1 : InvCore nfa ki (allocState nfa (nfa.GetNext m cur) st) :=
          h.core.alloc hT hTnotin
        have hlt1 : curId < (allocState nfa (nfa.GetNext m cur) st).dfa.size := by
          rw [allocState_size]
          exact Nat.lt_succ_of_lt hlt
        refine ⟨hcore1.setTrans hlt1, List.mem_append_left _ h.cur_mem, ?_, ?_, ?_, ?_, ?_⟩
        · intro hc
          rcases List.mem_cons.mp hc with hc' | hc'
          · exact hTnotin (hc' ▸ List.mem_map.mpr ⟨(cur, curId), h.cur_mem, rfl⟩)
          · exact h.cur_notin hc'
        · intro p hp hstk sym
          rcases List.mem_append.mp hp with hp' | hp'
          · have hne1 : p.1 ≠ nfa.GetNext m cur :=
              fun hc => hTnotin (hc ▸ List.mem_map.mpr ⟨p, hp', rfl⟩)
            have hstk' : p.1 ∈ st.stack := by
              rcases List.mem_cons.mp hstk with hc | hc
              · exact absurd hc hne1
              · exact hc
            have hne2 : p.2 ≠ curId :=
              h.id_ne hp' (fun hc => h.cur_notin (hc ▸ hstk'))
            show ((allocState nfa (nfa.GetNext m cur) st).dfa.SetTransition curId
                st.dfa.GetSize m).trans p.2 sym = none
            rw [trans_SetTransition_ne _ _ _ _ _ _ hne2, allocState_trans]
            exact h.pend p hp' hstk' sym
          · rcases List.mem_singleton.mp hp' with rfl
            have hne2 : st.dfa.GetSize ≠ curId := Nat.ne_of_gt hlt
            show ((allocState nfa (nfa.GetNext m cur) st).dfa.SetTransition curId
                st.dfa.GetSize m).trans st.dfa.GetSize sym = none
            rw [trans_SetTransition_ne _ _ _ _ _ _ hne2, allocState_trans]
            exact h.core.trans_hi _ sym le_rfl
        · intro p hp hstk hne
          have hne1 : p.1 ≠ nfa.GetNext m cur :=
            fun hc => hstk (by rw [hc]; exact List.mem_cons_self _ _)
          have hstk' : p.1 ∉ st.stack := fun hc => hstk (List.mem_cons_of_mem _ hc)
          rcases List.mem_append.mp hp with hp' | hp'
          · have old := h.proc p hp' hstk' hne
            have hid : p.2 ≠ curId := h.id_ne hp' hne
            constructor
            · intro sym hs
              refine condD_mono (old.1 sym hs) (fun x hx => List.mem_append_left _ hx) ?_
              show ((allocState nfa (nfa.GetNext m cur) st).dfa.SetTransition curId
                  st.dfa.GetSize m).trans p.2 sym = st.dfa.trans p.2 sym
              rw [trans_SetTransition_ne _ _ _ _ _ _ hid, allocState_trans]
            · intro sym hs
              show ((allocState nfa (nfa.GetNext m cur) st).dfa.SetTransition curId
                  st.dfa.GetSize m).trans p.2 sym = none
              rw [trans_SetTransition_ne _ _ _ _ _ _ hid, allocState_trans]
              exact old.2 sym hs
          · rcases List.mem_singleton.mp hp' with rfl
            exact absurd rfl hne1
        · intro sym hsym
          rcases Nat.lt_succ_iff_lt_or_eq.mp hsym with h' | rfl
          · refine condD_mono (h.cur_done sym h') (fun x hx => List.mem_append_left _ hx) ?_
            show ((allocState nfa (nfa.GetNext m cur) st).dfa.SetTransition curId
                st.dfa.GetSize m).trans curId sym = st.dfa.trans curId sym
            rw [trans_SetTransition, if_neg (fun hc => absurd hc.2 (Nat.ne_of_lt h')),
              allocState_trans]
          · refine ⟨fun hc => absurd hc hT, fun _ => ⟨st.dfa.GetSize, ?_, ?_⟩⟩
            · exact List.mem_append_right _ (List.mem_singleton.mpr rfl)
            · show ((allocState nfa (nfa.GetNext sym cur) st).dfa.SetTransition curId
                  st.dfa.GetSize sym).trans curId sym = some st.dfa.GetSize
              rw [trans_SetTransition, if_pos ⟨rfl, rfl⟩]
        · intro sym hsym
          show ((allocState nfa (nfa.GetNext m cur) st).dfa.SetTransition curId
              st.dfa.GetSize m).trans curId sym = none
          rw [trans_SetTransition, if_neg (fun hc => absurd hc.2 (by omega)),
            allocState_trans]
          exact h.cur_todo sym (by omega)

theorem Mid.fold {nfa : NFA} {ki : Bool} {cur : Finset Nat} {curId : Nat} :
    ∀ (k m : Nat) (st : SC), Mid nfa ki cur curId m st →
      Mid nfa ki cur curId (m + k)
        (List.foldl (procSym nfa ki cur curId) st (List.range' m k)) := by
  intro k
  induction k with
  | zero => intro m st h; exact h
  | succ k ih =>
      intro m st h
      have h2 := ih (m + 1) _ (Mid.step h)
      have he : m + 1 + k = m + (k + 1) := by omega
      rw [he] at h2
      exact h2

theorem stepSC_eq {nfa : NFA} {ki : Bool} {st : SC} {cur : Finset Nat}
    {rest : List (Finset Nat)} (hstk : st.stack = cur :: rest) :
    stepSC nfa ki st = (List.range nfa.num_symbols).foldl
      (procSym nfa ki cur ((lookupSet st.id_map cur).getD 0))
      { st with stack := rest } := by
  unfold stepSC
  rw [hstk]

theorem stepSC_eq_nil {nfa : NFA} {ki : Bool} {st : SC} (hstk : st.stack = []) :
    stepSC nfa ki st = st := by
  unfold stepSC
  rw [hstk]

theorem Inv.stepPres {nfa : NFA} {ki : Bool} {st : SC} (h : Inv nfa ki st) :
    Inv nfa ki (stepSC nfa ki st) := by
  cases hstk : st.stack with
  | nil => rw [stepSC_eq_nil hstk]; exact h
  | cons cur rest =>
      have hcurstk : cur ∈ st.stack := by rw [hstk]; exact List.mem_cons_self _ _
      have hcurkey : cur ∈ st.id_map.map Prod.fst := h.core.stack_sub cur hcurstk
      obtain ⟨p, hp, hp1⟩ := List.mem_map.mp hcurkey
      have hmem : (cur, p.2) ∈ st.id_map := by
        have : p = (cur, p.2) := by
          obtain ⟨a, b⟩ := p
          cases hp1
          rfl
        rw [← this]
        exact hp
      have hlook : lookupSet st.id_map cur = some p.2 :=
        lookupSet_of_mem h.core.nodup_keys hmem
      have hnodup : (cur :: rest).Nodup := by rw [← hstk]; exact h.core.stack_nodup
      have hmid0 : Mid nfa ki cur p.2 0 { st with stack := rest } := by
        refine ⟨⟨h.core.snd_lt, h.core.snd_inj, h.core.nodup_keys, h.core.size_eq,
          h.core.start_mem, ?_, ?_, h.core.trans_hi, h.core.stop_hi, h.core.stop_zero,
          h.core.stop_ok, h.core.empty_key⟩, hmem, ?_, ?_, ?_, ?_, ?_⟩
        · intro S hS
          exact h.core.stack_sub S (by rw [hstk]; exact List.mem_cons_of_mem _ hS)
        · exact (List.nodup_cons.mp hnodup).2
        · exact (List.nodup_cons.mp hnodup).1
        · intro q hq hq1 sym
          exact h.pend q hq (by rw [hstk]; exact List.mem_cons_of_mem _ hq1) sym
        · intro q hq hq1 hq2
          refine h.proc q hq ?_
          rw [hstk]
          intro hc
          rcases List.mem_cons.mp hc with hc' | hc'
          · exact hq2 hc'
          · exact hq1 hc'
        · intro sym hs
          exact absurd hs (Nat.not_lt_zero _)
        · intro sym _
          exact h.pend (cur, p.2) hmem hcurstk sym
      have hmid := Mid.fold nfa.num_symbols 0 _ hmid0
      rw [← List.range_eq_range', Nat.zero_add] at hmid
      rw [stepSC_eq hstk, hlook]
      refine ⟨hmid.core, hmid.pend, ?_⟩
      · intro q hq hstk'
        obtain ⟨a, b⟩ := q
        by_cases hqc : a = cur
        · subst hqc
          have hqid : b = p.2 := eq_id_of_mem_mem hmid.core.nodup_keys hq hmid.cur_mem
          subst hqid
          exact ⟨fun sym hs => hmid.cur_done sym hs, fun sym hs => hmid.cur_todo sym hs⟩
        · exact hmid.proc (a, b) hq hstk' hqc

theorem toDFAgo_succ (nfa : NFA) (ki : Bool) (fuel : Nat) (st : SC) :
    toDFAgo nfa ki (fuel + 1) st =
      if st.stack.isEmpty then st else toDFAgo nfa ki fuel (stepSC nfa ki st) := rfl

theorem Inv.go {nfa : NFA} {ki : Bool} :
    ∀ (fuel : Nat) (st : SC), Inv nfa ki st → Inv nfa ki (toDFAgo nfa ki fuel st) := by
  intro fuel
  induction fuel with
  | zero => intro st h; exact h
  | succ fuel ih =>
      intro st h
      rw [toDFAgo_succ]
      by_cases he : st.stack.isEmpty
      · rw [if_pos he]; exact h
      · rw [if_neg he]; exact ih _ h.stepPres

theorem Inv.initState (nfa : NFA) (ki : Bool) : Inv nfa ki (to_DFA_init nfa) := by
  refine ⟨⟨?_, ?_, ?_, rfl, ?_, ?_, ?_, ?_, ?_, rfl, ?_, ?_⟩, ?_, ?_⟩
  · intro p hp
    rcases List.mem_singleton.mp hp with rfl
    exact Nat.zero_lt_one
  · intro p hp q hq _
    rcases List.mem_singleton.mp hp with rfl
    rcases List.mem_singleton.mp hq with rfl
    rfl
  · exact List.nodup_singleton _
  · exact List.mem_singleton.mpr rfl
  · intro S hS
    rcases List.mem_singleton.mp hS with rfl
    exact List.mem_map.mpr ⟨(nfa.GetStart, 0), List.mem_singleton.mpr rfl, rfl⟩
  · exact List.nodup_singleton _
  · intro i sym _
    rfl
  · intro i _
    rfl
  · intro p hp hne
    rcases List.mem_singleton.mp hp with rfl
    exact absurd rfl hne
  · intro _ p hp _
    rcases List.mem_singleton.mp hp with rfl
    rfl
  · intro p hp _ sym
    rfl
  · intro p hp hstk
    rcases List.mem_singleton.mp hp with rfl
    exact absurd (List.mem_singleton.mpr rfl) hstk

theorem Inv.final (nfa : NFA) (ki : Bool) : Inv nfa ki (to_DFA_state nfa ki) :=
  Inv.go _ _ (Inv.initState nfa ki)

theorem procSym_lens (nfa : NFA) (ki : Bool) (cur : Finset Nat) (curId : Nat)
    (st : SC) (sym : Nat) :
    ((procSym nfa ki cur curId st sym).id_map.length = st.id_map.length ∧
     (procSym nfa ki cur curId st sym).stack.length = st.stack.length) ∨
    ((procSym nfa ki cur curId st sym).id_map.length = st.id_map.length + 1 ∧
     (procSym nfa ki cur curId st sym).stack.length = st.stack.length + 1) := by
  by_cases hT : nfa.GetNext sym cur = ∅ ∧ ki = false
  · rw [procSym_eq_skip hT]
    exact Or.inl ⟨rfl, rfl⟩
  · cases hl : lookupSet st.id_map (nfa.GetNext sym cur) with
    | some j =>
        rw [procSym_eq_hit hT hl]
        exact Or.inl ⟨rfl, rfl⟩
    | none =>
        rw [procSym_eq_new hT hl]
        refine Or.inr ⟨?_, rfl⟩
        simp [List.length_append]

theorem foldl_lens (nfa : NFA) (ki : Bool) (cur : Finset Nat) (curId : Nat) :
    ∀ (l : List Nat) (st : SC),
      ∃ k, (List.foldl (procSym nfa ki cur curId) st l).id_map.length =
             st.id_map.length + k ∧
           (List.foldl (procSym nfa ki cur curId) st l).stack.length =
             st.stack.length + k := by
  intro l
  induction l with
  | nil => intro st; exact ⟨0, rfl, rfl⟩
  | cons a l ih =>
      intro st
      obtain ⟨k, h1, h2⟩ := ih (procSym nfa ki cur curId st a)
      rcases procSym_lens nfa ki cur curId st a with ⟨g1, g2⟩ | ⟨g1, g2⟩
      · refine ⟨k, ?_, ?_⟩
        · rw [List.foldl_cons, h1, g1]
        · rw [List.foldl_cons, h2, g2]
      · refine ⟨k + 1, ?_, ?_⟩
        · rw [List.foldl_cons, h1, g1]; omega
        · rw [List.foldl_cons, h2, g2]; omega

theorem stepSC_lens {nfa : NFA} {ki : Bool} {st : SC} {cur : Finset Nat}
    {rest : List (Finset Nat)} (hstk : st.stack = cur :: rest) :
    ∃ k, (stepSC nfa ki st).id_map.length = st.id_map.length + k ∧
         (stepSC nfa ki st).stack.length + 1 = st.stack.length + k := by
  rw [stepSC_eq hstk]
  obtain ⟨k, h1, h2⟩ := foldl_lens nfa ki cur ((lookupSet st.id_map cur).getD 0)
    (List.range nfa.num_symbols) { st with stack := rest }
  refine ⟨k, h1, ?_⟩
  rw [h2, hstk]
  simp only [List.length_cons]
  omega

theorem HV.procSymPres {nfa : NFA} {ki : Bool} {cur : Finset Nat} {curId : Nat}
    {st : SC} {sym : Nat} (hv : nfa.Valid)
    (hcur : ∀ s ∈ cur, s < nfa.num_states) (hsym : sym < nfa.num_symbols)
    (hH : HV nfa st) : HV nfa (procSym nfa ki cur curId st sym) := by
  by_cases hT : nfa.GetNext sym cur = ∅ ∧ ki = false
  · rw [procSym_eq_skip hT]
    exact hH
  · cases hl : lookupSet st.id_map (nfa.GetNext sym cur) with
    | some j =>
        rw [procSym_eq_hit hT hl]
        exact hH
    | none =>
        rw [procSym_eq_new hT hl]
        intro p hp s hs
        rcases List.mem_append.mp hp with hp' | hp'
        · exact hH p hp' s hs
        · rcases List.mem_singleton.mp hp' with rfl
          simp only [NFA.GetNext] at hs
          obtain ⟨t, ht, hs'⟩ := Finset.mem_biUnion.mp hs
          exact hv.2 t (Finset.mem_range.mpr (hcur t ht)) sym
            (Finset.mem_range.mpr hsym) s hs'

theorem HV.foldPres {nfa : NFA} {ki : Bool} {cur : Finset Nat} {curId : Nat}
    (hv : nfa.Valid) (hcur : ∀ s ∈ cur, s < nfa.num_states) :
    ∀ (l : List Nat) (st : SC), (∀ x ∈ l, x < nfa.num_symbols) → HV nfa st →
      HV nfa (List.foldl (procSym nfa ki cur curId) st l) := by
  intro l
  induction l with
  | nil => intro st _ hH; exact hH
  | cons a l ih =>
      intro st hl hH
      rw [List.foldl_cons]
      exact ih _ (fun x hx => hl x (List.mem_cons_of_mem _ hx))
        (HV.procSymPres hv hcur (hl a (List.mem_cons_self _ _)) hH)

theorem HV.stepHV {nfa : NFA} {ki : Bool} {st : SC} (hv : nfa.Valid)
    (hI : Inv nfa ki st) (hH : HV nfa st) : HV nfa (stepSC nfa ki st) := by
  cases hstk : st.stack with
  | nil => rw [stepSC_eq_nil hstk]; exact hH
  | cons cur rest =>
      have hcurkey : cur ∈ st.id_map.map Prod.fst :=
        hI.core.stack_sub cur (by rw [hstk]; exact List.mem_cons_self _ _)
      obtain ⟨p, hp, hp1⟩ := List.mem_map.mp hcurkey
      have hcur : ∀ s ∈ cur, s < nfa.num_states := by
        intro s hs
        exact hH p hp s (by rw [hp1]; exact hs)
      rw [stepSC_eq hstk]
      exact HV.foldPres hv hcur _ _ (fun x hx => List.mem_range.mp hx) hH

theorem mapLen_le {nfa : NFA} {ki : Bool} {st : SC} (hI : Inv nfa ki st)
    (hH : HV nfa st) : st.id_map.length ≤ 2 ^ nfa.num_states := by
  rw [← List.length_map st.id_map Prod.fst]
  rw [← List.toFinset_card_of_nodup hI.core.nodup_keys]
  have h3 : (st.id_map.map Prod.fst).toFinset ⊆ (Finset.range nfa.num_states).powerset := by
    intro S hS
    rw [List.mem_toFinset] at hS
    obtain ⟨p, hp, hp1⟩ := List.mem_map.mp hS
    rw [Finset.mem_powerset]
    intro s hs
    rw [Finset.mem_range]
    exact hH p hp s (by rw [hp1]; exact hs)
  calc (st.id_map.map Prod.fst).toFinset.card
      ≤ (Finset.range nfa.num_states).powerset.card := Finset.card_le_card h3
    _ = 2 ^ (Finset.range nfa.num_states).card := Finset.card_powerset _
    _ = 2 ^ nfa.num_states := by rw [Finset.card_range]

theorem go_empties {nfa : NFA} {ki : Bool} (hv : nfa.Valid) :
    ∀ (fuel : Nat) (st : SC), Inv nfa ki st → HV nfa st →
      2 ^ nfa.num_states + st.stack.length ≤ fuel + st.id_map.length →
      (toDFAgo nfa ki fuel st).stack = [] := by
  intro fuel
  induction fuel with
  | zero =>
      intro st hI hH hb
      have hcard := mapLen_le hI hH
      have : st.stack.length = 0 := by omega
      exact List.length_eq_zero.mp this
  | succ fuel ih =>
      intro st hI hH hb
      rw [toDFAgo_succ]
      cases hstk : st.stack with
      | nil =>
          simp only [List.isEmpty_nil, if_true]
          exact hstk
      | cons cur rest =>
          simp only [List.isEmpty_cons, Bool.false_eq_true, if_false]
          obtain ⟨k, h1, h2⟩ := @stepSC_lens nfa ki st cur rest hstk
          refine ih _ hI.stepPres (HV.stepHV hv hI hH) ?_
          rw [hstk] at hb h2
          simp only [List.length_cons] at hb h2
          omega

theorem HV.initHV {nfa : NFA} (hv : nfa.Valid) : HV nfa (to_DFA_init nfa) := by
  intro p hp s hs
  rcases List.mem_singleton.mp hp with rfl
  exact hv.1 s hs

theorem finalStack_nil {nfa : NFA} {ki : Bool} (hv : nfa.Valid) :
    (to_DFA_state nfa ki).stack = [] := by
  refine go_empties hv _ _ (Inv.initState nfa ki) (HV.initHV hv) ?_
  exact le_rfl

theorem trans_target {nfa : NFA} {ki : Bool} {st : SC} (hI : Inv nfa ki st)
    {S : Finset Nat} {i sym a : Nat} (hmem : (S, i) ∈ st.id_map)
    (htr : st.dfa.trans i sym = some a) :
    sym < nfa.num_symbols ∧ (nfa.GetNext sym S, a) ∈ st.id_map := by
  by_cases hstk : S ∈ st.stack
  · rw [hI.pend (S, i) hmem hstk sym] at htr
    cases htr
  · have hp := hI.proc (S, i) hmem hstk
    by_cases hs : sym < nfa.num_symbols
    · refine ⟨hs, ?_⟩
      have hc := hp.1 sym hs
      by_cases hT : nfa.GetNext sym S = ∅ ∧ ki = false
      · rw [hc.1 hT] at htr
        cases htr
      · obtain ⟨j, hj, he⟩ := hc.2 hT
        rw [he] at htr
        injection htr with htr
        rw [← htr]
        exact hj
    · rw [hp.2 sym (Nat.le_of_not_lt hs)] at htr
      cases htr

theorem run_sim {nfa : NFA} {st : SC} (hI : Inv nfa false st) (hE : st.stack = []) :
    ∀ (w : List Nat), (∀ c ∈ w, c < nfa.num_symbols) →
      ∀ (S : Finset Nat) (i : Nat), (S, i) ∈ st.id_map →
        (∃ j, (nfaRunFrom nfa S w, j) ∈ st.id_map ∧
          dfaRunFrom st.dfa (some i) w = some j) ∨
        (nfaRunFrom nfa S w = ∅ ∧ dfaRunFrom st.dfa (some i) w = none) := by
  intro w
  induction w with
  | nil =>
      intro _ S i hmem
      exact Or.inl ⟨i, hmem, rfl⟩
  | cons c w ih =>
      intro hw S i hmem
      have hc : c < nfa.num_symbols := hw c (List.mem_cons_self _ _)
      have hproc := (hI.proc (S, i) hmem (by rw [hE]; exact List.not_mem_nil _)).1 c hc
      by_cases hT0 : nfa.GetNext c S = ∅
      · have htr : st.dfa.trans i c = none := hproc.1 ⟨hT0, rfl⟩
        right
        constructor
        · show nfaRunFrom nfa (nfa.GetNext c S) w = ∅
          rw [hT0]
          exact nfaRunFrom_empty nfa w
        · show dfaRunFrom st.dfa (st.dfa.trans i c) w = none
          rw [htr]
          exact dfaRunFrom_none st.dfa w
      · obtain ⟨j, hj, he⟩ := hproc.2 (fun hcc => hT0 hcc.1)
        rcases ih (fun x hx => hw x (List.mem_cons_of_mem _ hx)) (nfa.GetNext c S) j hj
          with ⟨k, hk, hrun⟩ | ⟨h1, h2⟩
        · left
          refine ⟨k, hk, ?_⟩
          show dfaRunFrom st.dfa (st.dfa.trans i c) w = some k
          rw [he]
          exact hrun
        · right
          refine ⟨h1, ?_⟩
          show dfaRunFrom st.dfa (st.dfa.trans i c) w = none
          rw [he]
          exact h2

theorem to_DFA_equiv_of_start_no_stop {nfa : NFA} (hv : nfa.Valid)
    (h0 : ∀ s ∈ nfa.GetStart, nfa.IsStop s = false) (w : List Nat)
    (hw : ∀ c ∈ w, c < nfa.num_symbols) :
    nfa.Accepts w ↔ (to_DFA nfa false).AcceptsB w = true := by
  have hI := Inv.final nfa false
  have hE := @finalStack_nil nfa false hv
  have hstart : (nfa.GetStart, 0) ∈ (to_DFA_state nfa false).id_map := hI.core.start_mem
  rcases run_sim hI hE w hw nfa.GetStart 0 hstart with ⟨j, hj, hrun⟩ | ⟨h1, h2⟩
  · have hAcc : (to_DFA nfa false).AcceptsB w = (to_DFA_state nfa false).dfa.stop j := by
      unfold DFA.AcceptsB to_DFA
      rw [hrun]
    by_cases hj0 : j = 0
    · subst hj0
      have hpq := hI.core.snd_inj _ hj _ hstart rfl
      have hR : nfaRunFrom nfa nfa.GetStart w = nfa.GetStart := congrArg Prod.fst hpq
      rw [hAcc, hI.core.stop_zero]
      refine iff_of_false ?_ (by simp)
      rintro ⟨s, hs, hstop⟩
      rw [hR] at hs
      rw [h0 s hs] at hstop
      cases hstop
    · rw [hAcc]
      unfold NFA.Accepts
      exact (hI.core.stop_ok (nfaRunFrom nfa nfa.GetStart w, j) hj hj0).symm
  · have hAcc : (to_DFA nfa false).AcceptsB w = false := by
      unfold DFA.AcceptsB to_DFA
      rw [h2]
    rw [hAcc]
    refine iff_of_false ?_ (by simp)
    rintro ⟨s, hs, _⟩
    rw [h1] at hs
    exact absurd hs (Finset.not_mem_empty s)

theorem HV.goHV {nfa : NFA} {ki : Bool} (hv : nfa.Valid) :
    ∀ (fuel : Nat) (st : SC), Inv nfa ki st → HV nfa st →
      HV nfa (toDFAgo nfa ki fuel st) := by
  intro fuel
  induction fuel with
  | zero => intro st _ hH; exact hH
  | succ fuel ih =>
      intro st hI hH
      rw [toDFAgo_succ]
      by_cases he : st.stack.isEmpty
      · rw [if_pos he]; exact hH
      · rw [if_neg he]; exact ih _ hI.stepPres (HV.stepHV hv hI hH)

theorem GetID_indep (p q : Parser) (e : PatElem) : p.GetID e = q.GetID e := by
  cases e <;> rfl

theorem BuildRule_indep (p q : Parser) : ∀ es, p.BuildRule es = q.BuildRule es := by
  intro es
  induction es with
  | nil => rfl
  | cons e es ih =>
      simp only [Parser.BuildRule]
      rw [GetID_indep p q e, ih]

theorem expectedRules_indep (p q : Parser) :
    ∀ (calls : List (String × List PatElem)) (startId : Int),
      expectedRules p startId calls = expectedRules q startId calls := by
  intro calls
  induction calls with
  | nil => intro startId; rfl
  | cons c rest ih =>
      intro startId
      simp only [expectedRules]
      rw [BuildRule_indep p q c.2, ih]

theorem expectedRules_length (p : Parser) :
    ∀ (calls : List (String × List PatElem)) (startId : Int),
      (expectedRules p startId calls).length = calls.length := by
  intro calls
  induction calls with
  | nil => intro startId; rfl
  | cons c rest ih =>
      intro startId
      simp only [expectedRules, List.length_cons]
      rw [ih]

theorem addRules_spec :
    ∀ (calls : List (String × List PatElem)) (p : Parser),
      (addRules p calls).1.rules = p.rules ++ expectedRules p p.cur_rule_id calls ∧
      (addRules p calls).1.cur_rule_id = p.cur_rule_id + calls.length ∧
      (addRules p calls).2 =
        (List.range calls.length).map (fun k : Nat => p.cur_rule_id + (k : Int)) := by
  intro calls
  induction calls with
  | nil =>
      intro p
      refine ⟨by simp [addRules, expectedRules], by simp [addRules], rfl⟩
  | cons c rest ih =>
      intro p
      obtain ⟨ih1, ih2, ih3⟩ := ih ((p.AddRule c.1 c.2).1)
      refine ⟨?_, ?_, ?_⟩
      · show (addRules (p.AddRule c.1 c.2).1 rest).1.rules = _
        rw [ih1]
        show (p.rules ++ [{ name := c.1, pattern := p.BuildRule c.2, id := p.cur_rule_id }])
            ++ expectedRules (p.AddRule c.1 c.2).1 (p.cur_rule_id + 1) rest = _
        rw [expectedRules_indep (p.AddRule c.1 c.2).1 p rest]
        rw [List.append_assoc, List.singleton_append]
        rfl
      · show (addRules (p.AddRule c.1 c.2).1 rest).1.cur_rule_id = _
        rw [ih2]
        show p.cur_rule_id + 1 + (rest.length : Int) = _
        simp only [List.length_cons]
        push_cast
        ring
      · show (p.AddRule c.1 c.2).2 :: (addRules (p.AddRule c.1 c.2).1 rest).2 = _
        rw [ih3]
        show p.cur_rule_id :: (List.range rest.length).map
            (fun k : Nat => p.cur_rule_id + 1 + (k : Int)) = _
        simp only [List.length_cons]
        rw [List.range_succ_eq_map, List.map_cons, List.map_map]
        have hf : (fun k : Nat => p.cur_rule_id + 1 + (k : Int)) =
            ((fun k : Nat => p.cur_rule_id + (k : Int)) ∘ Nat.succ) := by
          funext k
          show p.cur_rule_id + 1 + (k : Int) = p.cur_rule_id + ((k + 1 : Nat) : Int)
          push_cast
          ring
        rw [hf]
        simp

/-- C1 (counterexample): the claim "for every NFA and every string `w` over the
alphabet, the NFA accepts `w` iff the DFA returned by `to_DFA(nfa)` accepts
`w`" fails at the one-state NFA `exA`, whose single state is both start state
and accepting, with `w` the empty string: the NFA accepts the empty string,
but the DFA produced by `to_DFA` rejects it (state 0 is never marked
accepting). -/
theorem c1_counterexample :
    ¬ (exA.Accepts [] ↔ (to_DFA exA false).AcceptsB [] = true) := by decide

/-- C1 (amended): for every NFA satisfying the data-model invariant (valid
start and transition-destination indices) whose start state-set contains no
accepting state, and every string `w` over the alphabet, the NFA accepts `w`
iff the DFA returned by `to_DFA(nfa)` accepts `w` (accepting = ending in an
accepting state after consuming all of `w` from the start state-set resp.
state 0). -/
theorem c1_subset_equiv (nfa : NFA) (hv : nfa.Valid)
    (h0 : ∀ s ∈ nfa.GetStart, nfa.IsStop s = false) (w : List Nat)
    (hw : ∀ c ∈ w, c < nfa.num_symbols) :
    nfa.Accepts w ↔ (to_DFA nfa false).AcceptsB w = true :=
  to_DFA_equiv_of_start_no_stop hv h0 w hw

/-- C1 (witness): the amended equivalence applied to the two-state NFA `exB`
and the string `[0]`, which `exB` accepts. -/
theorem c1_witness : (to_DFA exB false).AcceptsB [0] = true :=
  (c1_subset_equiv exB (by decide) (by decide) [0] (by decide)).mp (by decide)

/-- C2 (counterexample): for a lexer with maximum token id 7, the first
`AddRule` call returns id 7, not 8 as the claim states (`cur_rule_id` is
initialized to `MaxTokenID()`, not `MaxTokenID() + 1`). -/
theorem c2_counterexample :
    ((Parser.init lx7).AddRule ("r") []).2 = 7 ∧
    ((Parser.init lx7).AddRule ("r") []).2 ≠ 8 :=
  ⟨rfl, by decide⟩

/-- C2 (amended): for every lexer whose maximum token id is `M` and a fresh
parser over it, the k-th `AddRule` call (0-based) returns id `M + k`: the
first call returns `M` itself, and each subsequent call returns the previous
id plus one, regardless of the rule names or pattern elements supplied. -/
theorem c2_rule_id_allocation (lx : Lexer) (calls : List (String × List PatElem)) :
    (addRules (Parser.init lx) calls).2 =
      (List.range calls.length).map (fun k : Nat => lx.MaxTokenID + (k : Int)) :=
  (addRules_spec calls (Parser.init lx)).2.2

/-- C3 (code bug, evaluated at the failing input): `AddRule("stmt",
"nonexistent_token")` on a parser whose lexer knows no token names does not
fail: the rule is silently appended with the unknown name resolved to id 0 and
the fresh rule id 7 is returned. -/
theorem c3_unknown_name_silent_zero :
    ((Parser.init lx7).AddRule ("stmt") [PatElem.name ("nonexistent_token")]).1.rules =
      [{ name := ("stmt" : String), pattern := [0], id := 7 }] ∧
    ((Parser.init lx7).AddRule ("stmt") [PatElem.name ("nonexistent_token")]).2 = 7 :=
  ⟨rfl, rfl⟩

/-- C4 (code bug, evaluated at the failing input): `GetID` uses integer
elements verbatim, but resolves every string element to 0 without consulting
previously declared rules or the lexer's token names: here the lexer maps the
token name "tok" to id 3, yet `GetID` still returns 0 for it. -/
theorem c4_getid_stub (p : Parser) (s : String) (n : Int) :
    p.GetID (PatElem.int n) = n ∧ p.GetID (PatElem.name s) = 0 ∧
    lxT.token_ids ("tok") = some 3 ∧
    (Parser.init lxT).GetID (PatElem.name ("tok")) = 0 :=
  ⟨rfl, rfl, by decide, rfl⟩

/-- C4 (witness): the theorem applied at a concrete parser, name and integer. -/
theorem c4_witness :
    (Parser.init lxT).GetID (PatElem.int 5) = 5 ∧
    (Parser.init lxT).GetID (PatElem.name ("tok")) = 0 :=
  ⟨(c4_getid_stub (Parser.init lxT) ("tok") 5).1,
   (c4_getid_stub (Parser.init lxT) ("tok") 5).2.1⟩

/-- C5: `to_DFA` never allocates two distinct DFA state indices for the same
NFA state-set (the `id_map` keys are pairwise distinct), and whenever two
(state, symbol) explorations compute equal successor state-sets, the recorded
transitions target the same DFA state. -/
theorem c5_memoization (nfa : NFA) (ki : Bool) :
    (∀ S i j, (S, i) ∈ (to_DFA_state nfa ki).id_map →
       (S, j) ∈ (to_DFA_state nfa ki).id_map → i = j) ∧
    (∀ S i S' i' sym sym' a b,
       (S, i) ∈ (to_DFA_state nfa ki).id_map →
       (S', i') ∈ (to_DFA_state nfa ki).id_map →
       (to_DFA nfa ki).trans i sym = some a →
       (to_DFA nfa ki).trans i' sym' = some b →
       nfa.GetNext sym S = nfa.GetNext sym' S' → a = b) := by
  have hI := Inv.final nfa ki
  constructor
  · intro S i j hi hj
    exact eq_id_of_mem_mem hI.core.nodup_keys hi hj
  · intro S i S' i' sym sym' a b hi hi' ha hb he
    have h1 := (trans_target hI hi ha).2
    have h2 := (trans_target hI hi' hb).2
    rw [he] at h1
    exact eq_id_of_mem_mem hI.core.nodup_keys h1 h2

/-- C5 (witness): both halves applied to the two-state NFA `exB` at concrete
map entries and transitions. -/
theorem c5_witness : (1 : Nat) = 1 ∧ (1 : Nat) = 1 :=
  ⟨(c5_memoization exB false).1 {1} 1 1 (by decide) (by decide),
   (c5_memoization exB false).2 {0} 0 {0} 0 0 0 1 1 (by decide) (by decide)
     (by decide) (by decide) rfl⟩

/-- C6: every DFA state allocated by `to_DFA` for a successor state-set `T`
(every state other than the seeded start state 0) is marked accepting iff at
least one NFA state in `T` is accepting. -/
theorem c6_stop_flag (nfa : NFA) (ki : Bool) (T : Finset Nat) (i : Nat)
    (hmem : (T, i) ∈ (to_DFA_state nfa ki).id_map) (hne : i ≠ 0) :
    ((to_DFA nfa ki).stop i = true ↔ ∃ s ∈ T, nfa.IsStop s = true) :=
  (Inv.final nfa ki).core.stop_ok (T, i) hmem hne

/-- C6 (witness): the state allocated for the set `{1}` of `exB` (which
contains the accepting NFA state 1) is accepting. -/
theorem c6_witness : (to_DFA exB false).stop 1 = true :=
  (c6_stop_flag exB false {1} 1 (by decide) (by decide)).mpr ⟨1, by decide, by decide⟩

/-- C7: for every valid NFA with `n` states, the work-list of `to_DFA` empties
within the allotted `2 ^ n` iterations (the loop terminates), and the
resulting DFA has at most `2 ^ n` states. -/
theorem c7_termination (nfa : NFA) (ki : Bool) (hv : nfa.Valid) :
    (to_DFA_state nfa ki).stack = [] ∧
    (to_DFA nfa ki).GetSize ≤ 2 ^ nfa.num_states := by
  refine ⟨finalStack_nil hv, ?_⟩
  have hI := Inv.final nfa ki
  have hH : HV nfa (to_DFA_state nfa ki) :=
    HV.goHV hv _ _ (Inv.initState nfa ki) (HV.initHV hv)
  show (to_DFA_state nfa ki).dfa.size ≤ 2 ^ nfa.num_states
  rw [hI.core.size_eq]
  exact mapLen_le hI hH

/-- C7 (witness): termination and the size bound at the two-state NFA `exB`. -/
theorem c7_witness :
    (to_DFA_state exB false).stack = [] ∧
    (to_DFA exB false).GetSize ≤ 2 ^ exB.num_states :=
  c7_termination exB false (by decide)

/-- C8: with `keep_invalid` unset, whenever `GetNext(symbol, S)` is empty for
an explored state-set `S`, no DFA transition is recorded for that
(state, symbol) pair; and no DFA state is ever allocated for the empty set
(the empty set can only appear in `id_map` as the seeded start set). -/
theorem c8_empty_skipped (nfa : NFA) :
    (∀ S i sym, (S, i) ∈ (to_DFA_state nfa false).id_map → sym < nfa.num_symbols →
       nfa.GetNext sym S = ∅ → (to_DFA nfa false).trans i sym = none) ∧
    (∀ i, (∅, i) ∈ (to_DFA_state nfa false).id_map → nfa.GetStart = ∅) := by
  have hI := Inv.final nfa false
  constructor
  · intro S i sym hmem hsym hT
    by_cases hstk : S ∈ (to_DFA_state nfa false).stack
    · exact hI.pend (S, i) hmem hstk sym
    · exact ((hI.proc (S, i) hmem hstk).1 sym hsym).1 ⟨hT, rfl⟩
  · intro i hmem
    exact (hI.core.empty_key rfl (∅, i) hmem rfl).symm

/-- C8 (witness): in `exA` (one state, no transitions) the successor of the
start set on symbol 0 is empty, and the produced DFA records no transition. -/
theorem c8_witness : (to_DFA exA false).trans 0 0 = none :=
  (c8_empty_skipped exA).1 {0} 0 0 (by decide) (by decide) (by decide)

/-- C9: the start state (index 0) of the DFA returned by `to_DFA` is never
marked accepting — the acceptance check is applied only to newly discovered
successor state-sets, never to the seeded start set — so the returned DFA
always rejects the empty string, for every NFA (even when the NFA's start
state-set contains an accepting state). -/
theorem c9_start_not_accepting (nfa : NFA) (ki : Bool) :
    (to_DFA nfa ki).stop 0 = false ∧ (to_DFA nfa false).AcceptsB [] = false :=
  ⟨(Inv.final nfa ki).core.stop_zero, (Inv.final nfa false).core.stop_zero⟩

/-- C10: each `AddRule` call appends exactly one rule at the end of the rule
list and leaves all previously stored rules (names, ids and patterns)
unchanged: after a sequence of k calls the rule list is the old list followed
by exactly one record per call, in declaration order, carrying the declared
names, the consecutively allocated ids, and the `GetID`-resolved patterns. -/
theorem c10_rules_append (p : Parser) (calls : List (String × List PatElem)) :
    (addRules p calls).1.rules = p.rules ++ expectedRules p p.cur_rule_id calls ∧
    (addRules p calls).1.rules.length = p.rules.length + calls.length := by
  refine ⟨(addRules_spec calls p).1, ?_⟩
  rw [(addRules_spec calls p).1, List.length_append, expectedRules_length]

end Empirical
